import Mathlib

/-!
Verification of the image-cache layer of the LightNovelsReader repository.

The persistent cache class `ImageCacheManager` (src/unnamed/part_007, lines
3281-3467) is embedded shallowly: `AsyncStorage` becomes a `StoredMeta`
payload inside an explicit `CacheState`, the file system becomes an
association list from paths to sizes, `FileSystem.downloadAsync` becomes a
`DlResult`-valued oracle, and every operation passes the state explicitly and
records the network fetches it performs in an event trace.

The superseding `ImageCacheService` (imported by `src/hooks/useImageCache.ts`
and by the `CachedImage` component but not among the provided sources) is
modelled from the specification further below.
-/

set_option autoImplicit false

namespace LNReader

/-- Association-list lookup keyed by strings (JS object property read). -/
def lookupA {α : Type} : List (String × α) → String → Option α
  | [], _ => none
  | kv :: r, k => if kv.1 = k then some kv.2 else lookupA r k

/-- Association-list insert/overwrite (JS object property write): replaces the
value in place when the key is present, appends otherwise. -/
def insertA {α : Type} : List (String × α) → String → α → List (String × α)
  | [], k, v => [(k, v)]
  | kv :: r, k, v => if kv.1 = k then (k, v) :: r else kv :: insertA r k v

/-- Association-list erase (JS `delete obj[key]`). -/
def eraseA {α : Type} : List (String × α) → String → List (String × α)
  | [], _ => []
  | kv :: r, k => if kv.1 = k then eraseA r k else kv :: eraseA r k

/-- The on-disk file system: a mapping from absolute paths to file sizes. -/
abbrev FileSys := List (String × Nat)

/-- `FileSystem.getInfoAsync(path).exists` for the modelled file system. -/
def fileExists (fs : FileSys) (p : String) : Bool :=
  (lookupA fs p).isSome

/-- Writing file bytes to a path (`FileSystem.downloadAsync` on completion). -/
def writeFile (fs : FileSys) (p : String) (sz : Nat) : FileSys :=
  insertA fs p sz

/-- `FileSystem.deleteAsync` on success removes the path. -/
def removeFile (fs : FileSys) (p : String) : FileSys :=
  eraseA fs p

/-- The image category, the `'cover' | 'content'` union type of the source. -/
inductive Category where
  | cover
  | content
deriving DecidableEq, Repr

/-- The string carried by a `Category` value at runtime. -/
def catStr : Category → String
  | .cover => "cover"
  | .content => "content"

/-- `FileSystem.documentDirectory`, a platform-provided constant; any fixed
absolute directory string models it. -/
def documentDirectory : String := "file:///data/app/files/"

/-- `this.cacheDir` as set in the `ImageCacheManager` constructor. -/
def cacheDir : String := documentDirectory ++ "images/"

/-- The character class kept by the sanitizer regex
`[^a-zA-Z0-9一-鿿]` of `getCacheFilePath`. -/
def allowedChar (c : Char) : Bool :=
  (97 ≤ c.toNat && c.toNat ≤ 122) || (65 ≤ c.toNat && c.toNat ≤ 90) ||
  (48 ≤ c.toNat && c.toNat ≤ 57) || (0x4e00 ≤ c.toNat && c.toNat ≤ 0x9fff)

/-- `str.replace(/[^a-zA-Z0-9一-鿿]/g, '_')`. -/
def sanitize (s : String) : String :=
  String.mk (s.data.map (fun c => if allowedChar c then c else '_'))

/-- `ImageCacheManager.getCacheFilePath` (part_007 lines 3311-3320). -/
def getCacheFilePath (ty : Category) (novelTitle : String) (imageName : String) : String :=
  match ty with
  | .cover => cacheDir ++ "covers/" ++ sanitize novelTitle ++ "_cover.jpg"
  | .content => cacheDir ++ "content/" ++ sanitize novelTitle ++ "_" ++ sanitize imageName ++ ".jpg"

/-- The cache key `` `${type}_${novelTitle}_${imageName}` `` used by
`cacheImage`, `getCachedImagePath` and `clearNovelCache` (part_007 line 3362,
3384); note the components are NOT sanitized here. -/
def cacheKey (ty : Category) (novelTitle : String) (imageName : String) : String :=
  catStr ty ++ "_" ++ novelTitle ++ "_" ++ imageName

/-- One metadata record `{ path, timestamp, url }` (part_007 line 3323). -/
structure CacheEntry where
  path : String
  timestamp : Nat
  url : String
deriving DecidableEq, Repr

/-- The full persisted mapping from cache-key strings to records. -/
abbrev Metadata := List (String × CacheEntry)

/-- The `AsyncStorage` payload under the reserved key
`image_cache_metadata`: absent (`getItem` returns null), corrupt
(`JSON.parse` throws), or a valid serialized mapping. -/
inductive StoredMeta where
  | absent
  | corrupt
  | valid (m : Metadata)
deriving DecidableEq, Repr

/-- The explicit world state threaded through every operation. -/
structure CacheState where
  storage : StoredMeta
  fs : FileSys
deriving DecidableEq, Repr

/-- A network event recorded in the trace of an operation; the manager
fetches via `FileSystem.downloadAsync`. -/
inductive NetEv where
  | fetch (url : String)
deriving DecidableEq, Repr

/-- Outcome of `FileSystem.downloadAsync`: a completed response with an HTTP
status and a body size written to the destination, or a thrown error. -/
inductive DlResult where
  | ok (status : Nat) (size : Nat)
  | err
deriving DecidableEq, Repr

/-- `ImageCacheManager.getCacheMetadata` (part_007 lines 3323-3331):
`data ? JSON.parse(data) : {}` with any error caught and mapped to `{}`. -/
def getCacheMetadata (s : CacheState) : Metadata :=
  match s.storage with
  | .absent => []
  | .corrupt => []
  | .valid m => m

/-- `ImageCacheManager.saveCacheMetadata` (part_007 lines 3334-3340). -/
def saveCacheMetadata (s : CacheState) (m : Metadata) : CacheState :=
  ⟨.valid m, s.fs⟩

/-- `ImageCacheManager.cacheImage` (part_007 lines 3343-3378). Directory
creation only touches directories, which the claims never observe, so the
model elides it; `net` is the download oracle and `now` is `Date.now()`.
Returns the result, the final state and the trace of network fetches. -/
def cacheImage (net : String → DlResult) (now : Nat) (imageUrl : String)
    (ty : Category) (novelTitle imageName : String) (s : CacheState) :
    Option String × CacheState × List NetEv :=
  let filePath := getCacheFilePath ty novelTitle imageName
  match net imageUrl with
  | .err => (none, s, [.fetch imageUrl])
  | .ok status size =>
    let s1 : CacheState := ⟨s.storage, writeFile s.fs filePath size⟩
    if status = 200 then
      let m := getCacheMetadata s1
      let key := cacheKey ty novelTitle imageName
      (some filePath, saveCacheMetadata s1 (insertA m key ⟨filePath, now, imageUrl⟩),
        [.fetch imageUrl])
    else
      (none, s1, [.fetch imageUrl])

/-- `ImageCacheManager.getCachedImagePath` (part_007 lines 3381-3404). The
`cacheInfo && cacheInfo.path` truthiness test becomes a nonempty-path check. -/
def getCachedImagePath (ty : Category) (novelTitle imageName : String)
    (s : CacheState) : Option String × CacheState × List NetEv :=
  let m := getCacheMetadata s
  let key := cacheKey ty novelTitle imageName
  match lookupA m key with
  | some ci =>
    if ci.path = "" then (none, s, [])
    else if fileExists s.fs ci.path then (some ci.path, s, [])
    else (none, saveCacheMetadata s (eraseA m key), [])
  | none => (none, s, [])

/-- Prefix test on character lists, a helper for the substring test. -/
def isPrefixL : List Char → List Char → Bool
  | [], _ => true
  | _ :: _, [] => false
  | a :: as, b :: bs => a = b && isPrefixL as bs

/-- Contiguous-substring test on character lists. -/
def isInfixL (n : List Char) : List Char → Bool
  | [] => n.isEmpty
  | c :: t => isPrefixL n (c :: t) || isInfixL n t

/-- `novelTitle`-containment test `key.includes(novelTitle)`. -/
def isSubstr (needle hay : String) : Bool :=
  isInfixL needle.data hay.data

/-- The deletion loop of `clearNovelCache` (part_007 lines 3416-3427) over
the pre-computed matching keys. `FileSystem.deleteAsync` throws when the path
does not exist; a throw is caught, the record survives and the counter is not
incremented. -/
def clearLoop : List String → Metadata → FileSys → Nat → Nat × Metadata × FileSys
  | [], m, fs, cnt => (cnt, m, fs)
  | k :: ks, m, fs, cnt =>
    match lookupA m k with
    | some ci =>
      if ci.path = "" then clearLoop ks m fs cnt
      else if fileExists fs ci.path then
        clearLoop ks (eraseA m k) (removeFile fs ci.path) (cnt + 1)
      else clearLoop ks m fs cnt
    | none => clearLoop ks m fs cnt

/-- `ImageCacheManager.clearNovelCache` (part_007 lines 3407-3438): filters
the keys containing the title, runs the deletion loop, and persists the
mapping only when at least one record was deleted. -/
def clearNovelCache (novelTitle : String) (s : CacheState) : Nat × CacheState :=
  let m := getCacheMetadata s
  let keys := (m.map Prod.fst).filter (fun k => isSubstr novelTitle k)
  let r := clearLoop keys m s.fs 0
  if 0 < r.1 then (r.1, ⟨.valid r.2.1, r.2.2⟩) else (r.1, ⟨s.storage, r.2.2⟩)

/-- One step of the `getCacheStats` accumulation (part_007 lines 3447-3459):
a record with a truthy path whose file exists adds one file and its size;
stat errors and missing files leave the accumulator unchanged. -/
def statsStep (fs : FileSys) (acc : Nat × Nat) (kv : String × CacheEntry) : Nat × Nat :=
  if kv.2.path = "" then acc
  else
    match lookupA fs kv.2.path with
    | some sz => (acc.1 + 1, acc.2 + sz)
    | none => acc

/-- `ImageCacheManager.getCacheStats` (part_007 lines 3441-3466). -/
def getCacheStats (s : CacheState) : Nat × Nat :=
  (getCacheMetadata s).foldl (statsStep s.fs) (0, 0)

/-!
The superseding implementation, `ImageCacheService`, is imported by
`src/hooks/useImageCache.ts` and by the `CachedImage` component
(src/unnamed/part_005) but its source file is not among the provided
sources; the definitions below model it from spec sections 4.2-4.4.
-/

/-- Modelled from the spec: the download retry count configuration constant
of the missing `ImageCacheService` (spec section 4.2, "default 3"). -/
def defaultRetryCount : Nat := 3

/-- Modelled from the spec: the maximum persistent cache footprint of the
missing `ImageCacheService` (spec section 6, "default 500MB"). -/
def defaultMaxFileCacheSize : Nat := 500 * 1024 * 1024

/-- Modelled from the spec: the Downloader retry loop of the missing
`ImageCacheService` (spec section 4.2). `attempts i` tells whether the i-th
attempt (1-based) succeeds; `i` is the current attempt number and the second
argument the number of attempts still allowed. Returns overall success, the
number of attempts performed, and the list of waits inserted between
consecutive attempts (`attempt * baseDelay` after failed attempt number
`attempt`). -/
def dlLoop (attempts : Nat → Bool) (baseDelay : Nat) : Nat → Nat → Bool × Nat × List Nat
  | _, 0 => (false, 0, [])
  | i, r + 1 =>
    if attempts i then (true, 1, [])
    else if r = 0 then (false, 1, [])
    else
      let rest := dlLoop attempts baseDelay (i + 1) r
      (rest.1, rest.2.1 + 1, i * baseDelay :: rest.2.2)

/-- Modelled from the spec: `download(url, destinationPath)` of the missing
`ImageCacheService`, attempted up to `retryCount` times (spec section 4.2). -/
def downloadWithRetry (attempts : Nat → Bool) (retryCount baseDelay : Nat) :
    Bool × Nat × List Nat :=
  dlLoop attempts baseDelay 1 retryCount

/-- Modelled from the spec: one Cache Entry of the missing
`ImageCacheService` metadata store,
`{path, sourceUrl, timestamp, sizeBytes, category}` (spec section 3). -/
structure SvcEntry where
  path : String
  sourceUrl : String
  timestamp : Nat
  sizeBytes : Nat
  category : Category
deriving DecidableEq, Repr

/-- The persisted mapping of the modelled `ImageCacheService`. -/
abbrev SvcMeta := List (String × SvcEntry)

/-- Modelled from the spec: the state of the missing `ImageCacheService` —
transient Memory Cache (key to resolved path), persistent Metadata Store,
and the file system (spec sections 2 and 3). -/
structure SvcState where
  memory : List (String × String)
  meta : SvcMeta
  fs : FileSys
deriving DecidableEq, Repr

/-- Modelled from the spec: the configuration surface of the missing
`ImageCacheService` (spec section 6). -/
structure SvcConfig where
  retryCount : Nat
  baseDelayMs : Nat
  maxFileCacheSize : Nat
  defaultImageUrl : String
deriving DecidableEq, Repr

/-- Aggregate size of all records known to the metadata store. -/
def sumSizes : SvcMeta → Nat
  | [] => 0
  | kv :: r => kv.2.sizeBytes + sumSizes r

/-- Ascending-timestamp order on metadata records. -/
def tsLE (a b : String × SvcEntry) : Prop :=
  a.2.timestamp ≤ b.2.timestamp

instance : DecidableRel tsLE := fun a b => Nat.decLe a.2.timestamp b.2.timestamp

instance : IsTotal (String × SvcEntry) tsLE :=
  ⟨fun a b => Nat.le_total a.2.timestamp b.2.timestamp⟩

instance : IsTrans (String × SvcEntry) tsLE :=
  ⟨fun _ _ _ hab hbc => Nat.le_trans hab hbc⟩

/-- Sorting the metadata snapshot ascending by timestamp, oldest first. -/
def sortByTs (m : SvcMeta) : SvcMeta :=
  List.insertionSort tsLE m

/-- Modelled from the spec: the inner eviction loop of the missing
`ImageCacheService` size sweep — delete records in the given (oldest-first)
order until the aggregate size drops to the target (spec section 4.4).
Returns the deleted records and the kept records. -/
def evictOldest : SvcMeta → Nat → Nat → SvcMeta × SvcMeta
  | [], _, _ => ([], [])
  | e :: rest, total, target =>
    if total ≤ target then ([], e :: rest)
    else
      let r := evictOldest rest (total - e.2.sizeBytes) target
      (e :: r.1, r.2)

/-- The 70% hysteresis target of the size sweep (spec section 4.4). -/
def sweepTarget (maxSize : Nat) : Nat := maxSize * 7 / 10

/-- Modelled from the spec: the size sweep of the missing
`ImageCacheService` (spec section 4.4): if the aggregate size exceeds the
maximum, sort ascending by timestamp and delete oldest-first until the
aggregate drops to 70% of the maximum; otherwise do nothing. -/
def sweepSize (maxSize : Nat) (m : SvcMeta) : SvcMeta × SvcMeta :=
  if sumSizes m ≤ maxSize then ([], m)
  else evictOldest (sortByTs m) (sumSizes (sortByTs m)) (sweepTarget maxSize)

/-- Modelled from the spec: a single write-path attempt of
`cacheImage` in the missing `ImageCacheService` (spec section 4.3 steps 1-4):
derive the path, run the Downloader (abstracted by the oracle `dl`), and on
success stat the file (`szOf`), write the metadata record, insert into the
Memory Cache and run the size sweep; on failure leave the state unchanged. -/
def svcCacheImageOnce (cfg : SvcConfig) (dl : String → Bool) (szOf : String → Nat)
    (now : Nat) (url : String) (ty : Category) (t n : String) (s : SvcState) :
    Option String × SvcState :=
  let p := getCacheFilePath ty t n
  let key := cacheKey ty t n
  if dl url then
    let fs1 := writeFile s.fs p (szOf url)
    let e : SvcEntry := ⟨p, url, now, szOf url, ty⟩
    let m1 := insertA s.meta key e
    let sw := sweepSize cfg.maxFileCacheSize m1
    let fs2 := sw.1.foldl (fun f kv => removeFile f kv.2.path) fs1
    (some p, ⟨insertA s.memory key p, sw.2, fs2⟩)
  else (none, s)

/-- Modelled from the spec: `cacheImage(url, category, owner, imageName,
useDefaultOnError)` of the missing `ImageCacheService` (spec section 4.3
step 5), written as the explicit primary-then-fallback pipeline the spec
itself prescribes in section 9: on primary failure with `useDefaultOnError`
and a non-placeholder url, one single attempt with the placeholder url. -/
def svcCacheImage (cfg : SvcConfig) (dl : String → Bool) (szOf : String → Nat)
    (now : Nat) (url : String) (ty : Category) (t n : String)
    (useDefaultOnError : Bool) (s : SvcState) : Option String × SvcState :=
  match svcCacheImageOnce cfg dl szOf now url ty t n s with
  | (some p, s1) => (some p, s1)
  | (none, s1) =>
    if useDefaultOnError ∧ url ≠ cfg.defaultImageUrl then
      svcCacheImageOnce cfg dl szOf now cfg.defaultImageUrl ty t n s1
    else (none, s1)

/-- Modelled from the spec: `getCachedPath` of the missing
`ImageCacheService` (spec section 4.3): Memory Cache first, then Metadata
Store with an on-disk existence check, self-heal on a stale record, and
promotion of a real hit into the Memory Cache; never any network fetch. -/
def svcGetCachedPath (ty : Category) (t n : String) (s : SvcState) :
    Option String × SvcState :=
  let key := cacheKey ty t n
  match lookupA s.memory key with
  | some p => (some p, s)
  | none =>
    match lookupA s.meta key with
    | some e =>
      if fileExists s.fs e.path then
        (some e.path, ⟨insertA s.memory key e.path, s.meta, s.fs⟩)
      else
        (none, ⟨s.memory, eraseA s.meta key, s.fs⟩)
    | none => (none, s)

/-- The Memory Cache consistency invariant: every memory entry is backed by
a Metadata Store record whose file exists (spec section 3: the memory layer
"is never the sole holder of truth"). -/
def MemConsistent (s : SvcState) : Prop :=
  ∀ k p, lookupA s.memory k = some p →
    ∃ e, lookupA s.meta k = some e ∧ e.path = p ∧ fileExists s.fs e.path = true

/-! ### Basic lemmas about the association-list operations -/

theorem lookupA_insertA_self {α : Type} (m : List (String × α)) (k : String) (v : α) :
    lookupA (insertA m k v) k = some v := by
  induction m with
  | nil => simp [insertA, lookupA]
  | cons kv r ih =>
    by_cases h : kv.1 = k
    · simp [insertA, h, lookupA]
    · simp [insertA, h, lookupA, ih]

theorem lookupA_eraseA_self {α : Type} (m : List (String × α)) (k : String) :
    lookupA (eraseA m k) k = none := by
  induction m with
  | nil => simp [eraseA, lookupA]
  | cons kv r ih =>
    by_cases h : kv.1 = k
    · simp [eraseA, h, ih]
    · simp [eraseA, h, lookupA, ih]

theorem lookupA_eraseA_ne {α : Type} (m : List (String × α)) (k q : String) (h : q ≠ k) :
    lookupA (eraseA m k) q = lookupA m q := by
  induction m with
  | nil => simp [eraseA]
  | cons kv r ih =>
    by_cases hk : kv.1 = k
    · have hq : ¬ k = q := fun e => h e.symm
      simp [eraseA, hk, lookupA, hq, ih]
    · simp [eraseA, hk, lookupA, ih]

theorem eraseA_of_not_mem {α : Type} (m : List (String × α)) (k : String)
    (h : k ∉ m.map Prod.fst) : eraseA m k = m := by
  induction m with
  | nil => rfl
  | cons kv r ih =>
    have h1 : kv.1 ≠ k := fun e => h (by simp [e])
    have h2 : k ∉ r.map Prod.fst := fun e => h (by simp [e])
    simp [eraseA, h1, ih h2]

theorem lookupA_eq_of_mem_nodup {α : Type} {m : List (String × α)} {k : String} {v : α}
    (hnd : (m.map Prod.fst).Nodup) (hm : (k, v) ∈ m) : lookupA m k = some v := by
  induction m with
  | nil => cases hm
  | cons kv r ih =>
    rcases List.mem_cons.mp hm with he | hr
    · rw [← he]; simp [lookupA]
    · simp only [List.map_cons, List.nodup_cons] at hnd
      have h1 : kv.1 ≠ k := fun e =>
        hnd.1 (by rw [e]; exact List.mem_map.mpr ⟨(k, v), hr, rfl⟩)
      simp [lookupA, h1, ih hnd.2 hr]

/-- Folding a step that is the identity on all entries with key `k` is
unaffected by erasing `k`. -/
theorem foldl_eraseA_eq {α β : Type} (f : β → String × α → β) (m : List (String × α))
    (k : String) (hid : ∀ v, (k, v) ∈ m → ∀ acc, f acc (k, v) = acc) :
    ∀ b, List.foldl f b (eraseA m k) = List.foldl f b m := by
  induction m with
  | nil => intro b; rfl
  | cons kv r ih =>
    intro b
    have hid' : ∀ v, (k, v) ∈ r → ∀ acc, f acc (k, v) = acc :=
      fun v hv acc => hid v (List.mem_cons_of_mem _ hv) acc
    by_cases h : kv.1 = k
    · have hkv : kv = (k, kv.2) := by
        cases kv; simp_all
      rw [hkv]
      simp only [eraseA, h, if_pos, List.foldl_cons]
      rw [hid kv.2 (by rw [← hkv]; exact List.mem_cons_self _ _) b]
      exact ih hid' b
    · simp only [eraseA, h, if_neg, not_false_iff, List.foldl_cons]
      exact ih hid' _

/-! ### C8: metadata read never fails -/

/-- C8: `getCacheMetadata` always returns a mapping and never propagates an
error: an absent payload and an unparseable payload both yield the empty
mapping, and a valid payload yields its mapping. -/
theorem getCacheMetadata_total (fs : FileSys) (m : Metadata) :
    getCacheMetadata ⟨.absent, fs⟩ = [] ∧ getCacheMetadata ⟨.corrupt, fs⟩ = [] ∧
      getCacheMetadata ⟨.valid m, fs⟩ = m :=
  ⟨rfl, rfl, rfl⟩

/-! ### C2: cache-then-hit -/

theorem strData_append (a b : String) : (a ++ b).data = a.data ++ b.data := rfl

theorem cacheDir_data_ne_nil : cacheDir.data ≠ [] := by decide

theorem getCacheFilePath_ne_empty (ty : Category) (t n : String) :
    getCacheFilePath ty t n ≠ "" := by
  intro h
  have hd := congrArg String.data h
  have h0 : ("" : String).data = [] := rfl
  cases ty <;>
  · simp only [getCacheFilePath, strData_append, h0, List.append_assoc,
      List.append_eq_nil] at hd
    exact cacheDir_data_ne_nil hd.1

/-- C2: if `cacheImage` succeeds with path `p`, the immediately following
`getCachedImagePath` for the same `(category, owner, imageName)` returns the
very same `p`, leaves the state unchanged, and performs no network fetch
(empty event trace). -/
theorem cacheImage_then_hit (net : String → DlResult) (now : Nat) (url : String)
    (ty : Category) (t n : String) (s s' : CacheState) (p : String) (tr : List NetEv)
    (h : cacheImage net now url ty t n s = (some p, s', tr)) :
    getCachedImagePath ty t n s' = (some p, s', []) := by
  rcases hn : net url with ⟨status, size⟩ | _
  · by_cases hs : status = 200
    · simp only [cacheImage, hn, hs, if_pos, Prod.mk.injEq, Option.some.injEq] at h
      obtain ⟨hp, hs', _⟩ := h
      subst hp
      subst hs'
      simp [getCachedImagePath, getCacheMetadata, saveCacheMetadata,
        lookupA_insertA_self, getCacheFilePath_ne_empty ty t n, fileExists, writeFile]
    · simp [cacheImage, hn, hs] at h
  · simp [cacheImage, hn] at h

theorem cacheImage_then_hit_witness :
    cacheImage (fun _ => .ok 200 7) 5 "http://u" .cover "N" "" ⟨.absent, []⟩ =
      (some "file:///data/app/files/images/covers/N_cover.jpg",
        ⟨.valid [("cover_N_",
            ⟨"file:///data/app/files/images/covers/N_cover.jpg", 5, "http://u"⟩)],
          [("file:///data/app/files/images/covers/N_cover.jpg", 7)]⟩,
        [.fetch "http://u"]) ∧
    getCachedImagePath .cover "N" ""
        ⟨.valid [("cover_N_",
            ⟨"file:///data/app/files/images/covers/N_cover.jpg", 5, "http://u"⟩)],
          [("file:///data/app/files/images/covers/N_cover.jpg", 7)]⟩ =
      (some "file:///data/app/files/images/covers/N_cover.jpg",
        ⟨.valid [("cover_N_",
            ⟨"file:///data/app/files/images/covers/N_cover.jpg", 5, "http://u"⟩)],
          [("file:///data/app/files/images/covers/N_cover.jpg", 7)]⟩, []) :=
  ⟨by decide,
   cacheImage_then_hit (fun _ => .ok 200 7) 5 "http://u" .cover "N" "" ⟨.absent, []⟩
     ⟨.valid [("cover_N_",
         ⟨"file:///data/app/files/images/covers/N_cover.jpg", 5, "http://u"⟩)],
       [("file:///data/app/files/images/covers/N_cover.jpg", 7)]⟩
     "file:///data/app/files/images/covers/N_cover.jpg"
     [.fetch "http://u"] (by decide)⟩

/-! ### C1: self-heal on a missing backing file -/

/-- C1: a cached-path lookup whose metadata record points at a file that no
longer exists returns none, persists the mapping with the stale record
removed, performs no network fetch (empty trace), and leaves the
`getCacheStats` counts exactly as they were (the stale entry contributed
nothing and is gone from the mapping afterwards). -/
theorem getCachedImagePath_selfHeal (ty : Category) (t n : String) (s : CacheState)
    (ci : CacheEntry)
    (hnd : ((getCacheMetadata s).map Prod.fst).Nodup)
    (hlk : lookupA (getCacheMetadata s) (cacheKey ty t n) = some ci)
    (hpath : ci.path ≠ "")
    (hmiss : fileExists s.fs ci.path = false) :
    getCachedImagePath ty t n s =
      (none, saveCacheMetadata s (eraseA (getCacheMetadata s) (cacheKey ty t n)), []) ∧
    lookupA (getCacheMetadata
        (saveCacheMetadata s (eraseA (getCacheMetadata s) (cacheKey ty t n))))
        (cacheKey ty t n) = none ∧
    getCacheStats (saveCacheMetadata s (eraseA (getCacheMetadata s) (cacheKey ty t n)))
      = getCacheStats s := by
  refine ⟨?_, ?_, ?_⟩
  · simp [getCachedImagePath, hlk, hpath, hmiss]
  · simp [saveCacheMetadata, getCacheMetadata, lookupA_eraseA_self]
  · have hid : ∀ v, (cacheKey ty t n, v) ∈ getCacheMetadata s →
        ∀ acc, statsStep s.fs acc (cacheKey ty t n, v) = acc := by
      intro v hv acc
      have hv' : v = ci := by
        have := lookupA_eq_of_mem_nodup hnd hv
        rw [hlk] at this
        exact (Option.some.injEq .. ▸ this).symm
      subst hv'
      by_cases hp : v.path = ""
      · simp [statsStep, hp]
      · have : lookupA s.fs v.path = none := by
          rcases he : lookupA s.fs v.path with _ | sz
          · rfl
          · rw [fileExists, he] at hmiss
            simp at hmiss
        simp [statsStep, hp, this]
    simp only [getCacheStats, saveCacheMetadata, getCacheMetadata]
    have := foldl_eraseA_eq (statsStep s.fs) (getCacheMetadata s) (cacheKey ty t n) hid (0, 0)
    cases hst : s.storage with
    | absent => simpa [getCacheMetadata, hst] using this
    | corrupt => simpa [getCacheMetadata, hst] using this
    | valid m => simpa [getCacheMetadata, hst] using this

theorem getCachedImagePath_selfHeal_witness :
    getCachedImagePath .cover "A" "" ⟨.valid [("cover_A_", ⟨"pa", 1, "u"⟩)], []⟩ =
      (none, ⟨.valid [], []⟩, []) ∧
    lookupA ([] : Metadata) "cover_A_" = none ∧
    getCacheStats ⟨.valid [], []⟩ =
      getCacheStats ⟨.valid [("cover_A_", ⟨"pa", 1, "u"⟩)], []⟩ := by
  have h := getCachedImagePath_selfHeal .cover "A" ""
    ⟨.valid [("cover_A_", ⟨"pa", 1, "u"⟩)], []⟩ ⟨"pa", 1, "u"⟩
    (by decide) (by decide) (by decide) (by decide)
  exact ⟨by simpa using h.1, by simpa using h.2.1, by simpa using h.2.2⟩

/-! ### C10: failed download leaves the persisted metadata untouched -/

/-- C10: when the download does not succeed with HTTP 200 (any other status,
or a thrown error), `cacheImage` returns none and the persisted metadata
payload is exactly what it was before the call. -/
theorem cacheImage_failure_noWrite (net : String → DlResult) (now : Nat) (url : String)
    (ty : Category) (t n : String) (s : CacheState)
    (hfail : ∀ st sz, net url = .ok st sz → st ≠ 200) :
    (cacheImage net now url ty t n s).1 = none ∧
      (cacheImage net now url ty t n s).2.1.storage = s.storage := by
  rcases hn : net url with ⟨status, size⟩ | _
  · have hs : status ≠ 200 := hfail status size hn
    simp [cacheImage, hn, hs]
  · simp [cacheImage, hn]

theorem cacheImage_failure_noWrite_witness :
    (∀ st sz, (fun _ : String => DlResult.ok 404 3) "http://u" = .ok st sz → st ≠ 200) ∧
      (cacheImage (fun _ => .ok 404 3) 7 "http://u" .cover "N" "" ⟨.absent, []⟩).1 = none ∧
      (cacheImage (fun _ => .ok 404 3) 7 "http://u" .cover "N" "" ⟨.absent, []⟩).2.1.storage
        = StoredMeta.absent :=
  have h : ∀ st sz, (fun _ : String => DlResult.ok 404 3) "http://u" = .ok st sz → st ≠ 200 := by
    intro st sz he
    cases he
    decide
  ⟨h, cacheImage_failure_noWrite (fun _ => .ok 404 3) 7 "http://u" .cover "N" "" ⟨.absent, []⟩ h⟩

/-! ### C3: bounded retries with non-zero, strictly increasing delays -/

theorem dlLoop_props (attempts : Nat → Bool) (d : Nat) (hd : 0 < d) :
    ∀ r i, 0 < i →
      (dlLoop attempts d i r).2.1 ≤ r ∧
      ((dlLoop attempts d i r).1 = false →
        (dlLoop attempts d i r).2.1 = r ∧
          ∀ j, i ≤ j → j < i + r → attempts j = false) ∧
      List.Chain' (· < ·) (dlLoop attempts d i r).2.2 ∧
      (∀ x ∈ (dlLoop attempts d i r).2.2, i * d ≤ x ∧ 0 < x) := by
  intro r
  induction r with
  | zero =>
    intro i _
    exact ⟨by simp [dlLoop], fun _ => ⟨by simp [dlLoop],
      fun j h1 h2 => absurd h2 (by omega)⟩, by simp [dlLoop], by simp [dlLoop]⟩
  | succ rr ih =>
    intro i hi
    by_cases ha : attempts i = true
    · simp only [dlLoop, ha, if_pos]
      refine ⟨by omega, fun hc => by simp at hc, by simp, by simp⟩
    · replace ha : attempts i = false := by simpa using ha
      rcases Nat.eq_zero_or_pos rr with h0 | hrr
    -- last attempt: one try, no further delay
      · subst h0
        simp only [dlLoop, ha, Bool.false_eq_true, if_neg, not_false_iff, if_pos]
        refine ⟨by omega, fun _ => ⟨by trivial, ?_⟩, by simp, by simp⟩
        intro j h1 h2
        have : j = i := by omega
        rw [this]; exact ha
      · have hrne : rr ≠ 0 := Nat.pos_iff_ne_zero.mp hrr
        obtain ⟨iha, ihb, ihc, ihd⟩ := ih (i + 1) (by omega)
        simp only [dlLoop, ha, Bool.false_eq_true, if_neg, not_false_iff, hrne, if_neg]
        refine ⟨by omega, ?_, ?_, ?_⟩
        · intro hfail
          obtain ⟨hlen, hall⟩ := ihb hfail
          refine ⟨by omega, ?_⟩
          intro j h1 h2
          rcases Nat.eq_or_lt_of_le h1 with he | hlt
          · rw [← he]; exact ha
          · exact hall j (by omega) (by omega)
        · rw [List.chain'_cons']
          refine ⟨?_, ihc⟩
          intro y hy
          have hym : y ∈ (dlLoop attempts d (i + 1) rr).2.2 := by
            cases hh : (dlLoop attempts d (i + 1) rr).2.2 with
            | nil => rw [hh] at hy; simp at hy
            | cons a l =>
              rw [hh] at hy
              simp at hy
              subst hy
              exact List.mem_cons_self _ _
          have := (ihd y hym).1
          have hstep : i * d < (i + 1) * d :=
            (Nat.mul_lt_mul_right hd).mpr (Nat.lt_succ_self i)
          omega
        · intro x hx
          rcases List.mem_cons.mp hx with he | hm
          · subst he
            exact ⟨Nat.le_refl _, Nat.mul_pos hi hd⟩
          · have := ihd x hm
            have hstep : i * d ≤ (i + 1) * d := Nat.mul_le_mul_right d (by omega)
            omega

/-- C3: the modelled Downloader performs at most `retryCount` attempts
(default 3); it reports failure only after all `retryCount` attempts have
failed; and the waits it inserts between consecutive attempts are non-zero
and strictly increasing. -/
theorem downloadWithRetry_spec (attempts : Nat → Bool) (retryCount baseDelay : Nat)
    (hd : 0 < baseDelay) :
    (downloadWithRetry attempts retryCount baseDelay).2.1 ≤ retryCount ∧
    ((downloadWithRetry attempts retryCount baseDelay).1 = false →
      (downloadWithRetry attempts retryCount baseDelay).2.1 = retryCount ∧
        ∀ j, 1 ≤ j → j ≤ retryCount → attempts j = false) ∧
    List.Chain' (· < ·) (downloadWithRetry attempts retryCount baseDelay).2.2 ∧
    (∀ x ∈ (downloadWithRetry attempts retryCount baseDelay).2.2, 0 < x) ∧
    defaultRetryCount = 3 := by
  obtain ⟨ha, hb, hc, hm⟩ := dlLoop_props attempts baseDelay hd retryCount 1 (by omega)
  refine ⟨ha, ?_, hc, fun x hx => (hm x hx).2, rfl⟩
  intro hfail
  obtain ⟨hlen, hall⟩ := hb hfail
  exact ⟨hlen, fun j h1 h2 => hall j h1 (by omega)⟩

theorem downloadWithRetry_spec_witness :
    downloadWithRetry (fun _ => false) 3 100 = (false, 3, [100, 200]) ∧
    (downloadWithRetry (fun _ => false) 3 100).2.1 ≤ 3 ∧
    List.Chain' (· < ·) (downloadWithRetry (fun _ => false) 3 100).2.2 ∧
    (∀ x ∈ (downloadWithRetry (fun _ => false) 3 100).2.2, 0 < x) :=
  have h := downloadWithRetry_spec (fun _ => false) 3 100 (by decide)
  ⟨by decide, h.1, h.2.2.1, h.2.2.2.1⟩

/-! ### C4: single placeholder fallback on retry exhaustion -/

/-- C4: when the primary url exhausts its download attempts, is distinct
from the placeholder url, and `useDefaultOnError` is set, `cacheImage` is
retried exactly once, with the placeholder url substituted, as a single
further write-path attempt; the call returns none exactly when that
placeholder attempt also fails; and with `useDefaultOnError` unset a failed
primary attempt returns none with no fallback. -/
theorem svcCacheImage_fallback (cfg : SvcConfig) (dl : String → Bool)
    (szOf : String → Nat) (now : Nat) (url : String) (ty : Category) (t n : String)
    (s : SvcState) (hfail : dl url = false) (hne : url ≠ cfg.defaultImageUrl) :
    svcCacheImage cfg dl szOf now url ty t n true s =
      svcCacheImageOnce cfg dl szOf now cfg.defaultImageUrl ty t n s ∧
    ((svcCacheImage cfg dl szOf now url ty t n true s).1 = none ↔
      dl cfg.defaultImageUrl = false) ∧
    svcCacheImage cfg dl szOf now url ty t n false s = (none, s) := by
  have h1 : svcCacheImageOnce cfg dl szOf now url ty t n s = (none, s) := by
    simp [svcCacheImageOnce, hfail]
  have h2 : svcCacheImage cfg dl szOf now url ty t n true s =
      svcCacheImageOnce cfg dl szOf now cfg.defaultImageUrl ty t n s := by
    simp [svcCacheImage, h1, hne]
  refine ⟨h2, ?_, by simp [svcCacheImage, h1]⟩
  rw [h2]
  cases hdef : dl cfg.defaultImageUrl with
  | false => simp [svcCacheImageOnce, hdef]
  | true => simp [svcCacheImageOnce, hdef]

theorem svcCacheImage_fallback_witness :
    svcCacheImage ⟨3, 100, 1000, "http://d"⟩ (fun u => u = "http://d") (fun _ => 4) 9
        "http://u" .cover "N" "" true ⟨[], [], []⟩ =
      svcCacheImageOnce ⟨3, 100, 1000, "http://d"⟩ (fun u => u = "http://d") (fun _ => 4) 9
        "http://d" .cover "N" "" ⟨[], [], []⟩ ∧
    ((svcCacheImage ⟨3, 100, 1000, "http://d"⟩ (fun u => u = "http://d") (fun _ => 4) 9
        "http://u" .cover "N" "" true ⟨[], [], []⟩).1 = none ↔
      (fun u : String => (u = "http://d" : Bool)) "http://d" = false) ∧
    svcCacheImage ⟨3, 100, 1000, "http://d"⟩ (fun u => u = "http://d") (fun _ => 4) 9
        "http://u" .cover "N" "" false ⟨[], [], []⟩ = (none, ⟨[], [], []⟩) :=
  svcCacheImage_fallback ⟨3, 100, 1000, "http://d"⟩ (fun u => u = "http://d") (fun _ => 4) 9
    "http://u" .cover "N" "" ⟨[], [], []⟩ (by decide) (by decide)

/-! ### C6: the Memory Cache layer -/

/-- C6: the modelled `getCachedPath` consults the Memory Cache first and on
a memory hit touches nothing else; on a memory miss with a verified Metadata
Store hit it promotes the resolved path into the Memory Cache; a successful
write-path attempt also inserts the resolved path into the Memory Cache; and
under the memory-consistency invariant the Memory Cache is a pure
short-circuit: result and persisted metadata agree with a lookup made with
an empty Memory Cache. -/
theorem svcGetCachedPath_memory (ty : Category) (t n : String) (s : SvcState) :
    (∀ p, lookupA s.memory (cacheKey ty t n) = some p →
      svcGetCachedPath ty t n s = (some p, s)) ∧
    (lookupA s.memory (cacheKey ty t n) = none →
      ∀ e, lookupA s.meta (cacheKey ty t n) = some e → fileExists s.fs e.path = true →
        svcGetCachedPath ty t n s =
          (some e.path, ⟨insertA s.memory (cacheKey ty t n) e.path, s.meta, s.fs⟩)) ∧
    (∀ cfg dl szOf now url p s2,
      svcCacheImageOnce cfg dl szOf now url ty t n s = (some p, s2) →
        lookupA s2.memory (cacheKey ty t n) = some p) ∧
    (MemConsistent s →
      (svcGetCachedPath ty t n s).1 =
        (svcGetCachedPath ty t n ⟨[], s.meta, s.fs⟩).1 ∧
      (svcGetCachedPath ty t n s).2.meta =
        (svcGetCachedPath ty t n ⟨[], s.meta, s.fs⟩).2.meta) := by
  refine ⟨?_, ?_, ?_, ?_⟩
  · intro p hp
    simp [svcGetCachedPath, hp]
  · intro hm e he hex
    simp [svcGetCachedPath, hm, he, hex]
  · intro cfg dl szOf now url p s2 h
    cases hdl : dl url with
    | false => simp [svcCacheImageOnce, hdl] at h
    | true =>
      simp only [svcCacheImageOnce, hdl, if_pos, Prod.mk.injEq, Option.some.injEq] at h
      obtain ⟨hp, hs2⟩ := h
      subst hs2
      simp [lookupA_insertA_self, hp]
  · intro hcon
    cases hm : lookupA s.memory (cacheKey ty t n) with
    | none =>
      simp only [svcGetCachedPath, hm, lookupA]
      rcases he : lookupA s.meta (cacheKey ty t n) with _ | e
      · simp
      · by_cases hex : fileExists s.fs e.path = true
        · simp [hex]
        · simp [hex]
    | some p =>
      obtain ⟨e, he, hep, hex⟩ := hcon (cacheKey ty t n) p hm
      rw [hep] at hex
      simp [svcGetCachedPath, hm, he, hex, lookupA, hep]

theorem svcGetCachedPath_memory_witness :
    svcGetCachedPath .cover "N" ""
        ⟨[("cover_N_", "p")], [("cover_N_", ⟨"p", "u", 1, 2, .cover⟩)], [("p", 2)]⟩ =
      (some "p", ⟨[("cover_N_", "p")], [("cover_N_", ⟨"p", "u", 1, 2, .cover⟩)], [("p", 2)]⟩) :=
  (svcGetCachedPath_memory .cover "N" ""
    ⟨[("cover_N_", "p")], [("cover_N_", ⟨"p", "u", 1, 2, .cover⟩)], [("p", 2)]⟩).1
    "p" (by decide)

/-! ### C5: size sweep with 70% hysteresis, oldest first -/

theorem sumSizes_cons (e : String × SvcEntry) (m : SvcMeta) :
    sumSizes (e :: m) = e.2.sizeBytes + sumSizes m := rfl

theorem evictOldest_spec (target : Nat) :
    ∀ m total, total = sumSizes m →
      (evictOldest m total target).1 ++ (evictOldest m total target).2 = m ∧
      sumSizes (evictOldest m total target).2 ≤ target ∧
      ∀ j, j < (evictOldest m total target).1.length →
        target < sumSizes (List.drop j m) := by
  intro m
  induction m with
  | nil =>
    intro total h
    refine ⟨rfl, Nat.zero_le _, ?_⟩
    intro j hj
    simp [evictOldest] at hj
  | cons e rest ih =>
    intro total h
    by_cases hle : total ≤ target
    · refine ⟨by simp [evictOldest, hle], ?_, ?_⟩
      · simp only [evictOldest, hle, if_pos]
        rw [← h]
        exact hle
      · intro j hj
        simp [evictOldest, hle] at hj
    · have h' : total - e.2.sizeBytes = sumSizes rest := by
        rw [h, sumSizes_cons]; omega
      obtain ⟨ha, hb, hc⟩ := ih (total - e.2.sizeBytes) h'
      refine ⟨?_, ?_, ?_⟩
      · simpa [evictOldest, hle] using ha
      · simpa [evictOldest, hle] using hb
      · intro j hj
        simp only [evictOldest, hle, if_neg, not_false_iff, List.length_cons] at hj
        cases j with
        | zero =>
          rw [List.drop_zero, ← h]
          omega
        | succ i =>
          rw [List.drop_succ_cons]
          exact hc i (by omega)

/-- C5: a successful write-path attempt runs the size sweep over the full
post-insert metadata snapshot; if the aggregate size is within the maximum
nothing is deleted, and otherwise the kept records are a suffix of the
ascending-timestamp ordering whose aggregate size is at most 70% of the
maximum, the deleted records being exactly the minimal oldest-first prefix
needed to reach that target; the default maximum is 500MB. -/
theorem svcCacheImage_sizeSweep (cfg : SvcConfig) (dl : String → Bool)
    (szOf : String → Nat) (now : Nat) (url : String) (ty : Category) (t n : String)
    (s : SvcState) (p : String) (s2 : SvcState)
    (h : svcCacheImageOnce cfg dl szOf now url ty t n s = (some p, s2)) :
    s2.meta = (sweepSize cfg.maxFileCacheSize
        (insertA s.meta (cacheKey ty t n)
          ⟨getCacheFilePath ty t n, url, now, szOf url, ty⟩)).2 ∧
    (sumSizes (insertA s.meta (cacheKey ty t n)
          ⟨getCacheFilePath ty t n, url, now, szOf url, ty⟩) ≤ cfg.maxFileCacheSize →
      s2.meta = insertA s.meta (cacheKey ty t n)
          ⟨getCacheFilePath ty t n, url, now, szOf url, ty⟩) ∧
    (cfg.maxFileCacheSize < sumSizes (insertA s.meta (cacheKey ty t n)
          ⟨getCacheFilePath ty t n, url, now, szOf url, ty⟩) →
      List.Sorted tsLE (sortByTs (insertA s.meta (cacheKey ty t n)
          ⟨getCacheFilePath ty t n, url, now, szOf url, ty⟩)) ∧
      ∃ d, (sweepSize cfg.maxFileCacheSize (insertA s.meta (cacheKey ty t n)
            ⟨getCacheFilePath ty t n, url, now, szOf url, ty⟩)).1 =
          (sortByTs (insertA s.meta (cacheKey ty t n)
            ⟨getCacheFilePath ty t n, url, now, szOf url, ty⟩)).take d ∧
        s2.meta = (sortByTs (insertA s.meta (cacheKey ty t n)
            ⟨getCacheFilePath ty t n, url, now, szOf url, ty⟩)).drop d ∧
        sumSizes s2.meta ≤ sweepTarget cfg.maxFileCacheSize ∧
        ∀ j, j < d → sweepTarget cfg.maxFileCacheSize <
          sumSizes ((sortByTs (insertA s.meta (cacheKey ty t n)
            ⟨getCacheFilePath ty t n, url, now, szOf url, ty⟩)).drop j)) ∧
    sweepTarget cfg.maxFileCacheSize = cfg.maxFileCacheSize * 7 / 10 ∧
    defaultMaxFileCacheSize = 500 * 1024 * 1024 := by
  cases hdl : dl url with
  | false => simp [svcCacheImageOnce, hdl] at h
  | true =>
    simp only [svcCacheImageOnce, hdl, if_pos, Prod.mk.injEq, Option.some.injEq] at h
    obtain ⟨-, hs2⟩ := h
    subst hs2
    set m1 := insertA s.meta (cacheKey ty t n)
      ⟨getCacheFilePath ty t n, url, now, szOf url, ty⟩ with hm1
    refine ⟨rfl, ?_, ?_, rfl, rfl⟩
    · intro hle
      simp [sweepSize, hle]
    · intro hgt
      have hnle : ¬ sumSizes m1 ≤ cfg.maxFileCacheSize := by omega
      obtain ⟨ha, hb, hc⟩ := evictOldest_spec (sweepTarget cfg.maxFileCacheSize)
        (sortByTs m1) (sumSizes (sortByTs m1)) rfl
      set E := evictOldest (sortByTs m1) (sumSizes (sortByTs m1))
        (sweepTarget cfg.maxFileCacheSize) with hE
      have hsw : sweepSize cfg.maxFileCacheSize m1 = E := by
        rw [hE]; simp [sweepSize, hnle]
      have hD : E.1 = (sortByTs m1).take E.1.length := by
        conv_rhs => rw [← ha, List.take_left]
      have hK : E.2 = (sortByTs m1).drop E.1.length := by
        conv_rhs => rw [← ha, List.drop_left]
      refine ⟨List.sorted_insertionSort tsLE m1, E.1.length, ?_, ?_, ?_, hc⟩
      · rw [hsw]; exact hD
      · show (sweepSize cfg.maxFileCacheSize m1).2 = _
        rw [hsw]; exact hK
      · show sumSizes (sweepSize cfg.maxFileCacheSize m1).2 ≤ _
        rw [hsw]; exact hb

theorem svcCacheImage_sizeSweep_witness :
    (svcCacheImageOnce ⟨3, 100, 10, "http://d"⟩ (fun _ => true) (fun _ => 6) 9
        "http://u" .cover "N" "" ⟨[], [("old", ⟨"pold", "u0", 1, 6, .cover⟩)], []⟩).2.meta =
      [("cover_N_", ⟨"file:///data/app/files/images/covers/N_cover.jpg",
        "http://u", 9, 6, .cover⟩)] ∧
    sweepTarget 10 = 7 := by
  have h := svcCacheImage_sizeSweep ⟨3, 100, 10, "http://d"⟩ (fun _ => true) (fun _ => 6) 9
    "http://u" .cover "N" "" ⟨[], [("old", ⟨"pold", "u0", 1, 6, .cover⟩)], []⟩
    "file:///data/app/files/images/covers/N_cover.jpg"
    (svcCacheImageOnce ⟨3, 100, 10, "http://d"⟩ (fun _ => true) (fun _ => 6) 9
        "http://u" .cover "N" "" ⟨[], [("old", ⟨"pold", "u0", 1, 6, .cover⟩)], []⟩).2
    (by decide)
  refine ⟨?_, by decide⟩
  rw [h.1]
  decide

/-! ### C7: owner-scoped clear

The claim describes `clearNovelCache` declaratively; the `spec…` definitions
below state that description (which entries are deleted, how many, which are
kept) so the implementation's loop can be proved equal to it. -/

/-- The claim's description of which records `clearNovelCache` deletes: key
contains the owner, truthy path, and the backing file deletion succeeds
(deletion fails exactly when the file is already gone). -/
def specShouldDelete (title : String) (fs : FileSys) (kv : String × CacheEntry) : Bool :=
  if isSubstr title kv.1 then
    if kv.2.path = "" then false else fileExists fs kv.2.path
  else false

/-- The claim's count: number of entries actually deleted. -/
def specClearCount (title : String) (fs : FileSys) : Metadata → Nat
  | [] => 0
  | kv :: r => (if specShouldDelete title fs kv then 1 else 0) + specClearCount title fs r

/-- The claim's resulting mapping: all records not deleted, in order. -/
def specClearKept (title : String) (fs : FileSys) : Metadata → Metadata
  | [] => []
  | kv :: r =>
    if specShouldDelete title fs kv then specClearKept title fs r
    else kv :: specClearKept title fs r

/-- Paths of the owner-matching records with truthy paths; the main theorem
assumes these are pairwise distinct. -/
def specMatchedPaths (title : String) : Metadata → List String
  | [] => []
  | kv :: r =>
    if isSubstr title kv.1 ∧ kv.2.path ≠ "" then kv.2.path :: specMatchedPaths title r
    else specMatchedPaths title r

theorem fileExists_removeFile_self (fs : FileSys) (p : String) :
    fileExists (removeFile fs p) p = false := by
  simp [fileExists, removeFile, lookupA_eraseA_self]

theorem fileExists_removeFile_ne (fs : FileSys) (p q : String) (h : q ≠ p) :
    fileExists (removeFile fs p) q = fileExists fs q := by
  simp [fileExists, removeFile, lookupA_eraseA_ne fs p q h]

theorem fileExists_removeFile_le (fs : FileSys) (p q : String)
    (h : fileExists (removeFile fs q) p = true) : fileExists fs p = true := by
  by_cases he : p = q
  · rw [he, fileExists_removeFile_self] at h
    cases h
  · rwa [fileExists_removeFile_ne fs q p he] at h

theorem specShouldDelete_congr (title : String) (fs1 fs2 : FileSys)
    (kv : String × CacheEntry)
    (h : isSubstr title kv.1 = true → kv.2.path ≠ "" →
      fileExists fs1 kv.2.path = fileExists fs2 kv.2.path) :
    specShouldDelete title fs1 kv = specShouldDelete title fs2 kv := by
  by_cases hs : isSubstr title kv.1 = true
  · by_cases hp : kv.2.path = ""
    · simp [specShouldDelete, hs, hp]
    · simp [specShouldDelete, hs, hp, h hs hp]
  · have hs' : isSubstr title kv.1 = false := by simpa using hs
    simp [specShouldDelete, hs']

theorem specClear_congr (title : String) (fs1 fs2 : FileSys) :
    ∀ m : Metadata,
      (∀ kv ∈ m, specShouldDelete title fs1 kv = specShouldDelete title fs2 kv) →
      specClearCount title fs1 m = specClearCount title fs2 m ∧
      specClearKept title fs1 m = specClearKept title fs2 m := by
  intro m
  induction m with
  | nil => intro _; exact ⟨rfl, rfl⟩
  | cons kv r ih =>
    intro h
    obtain ⟨hc, hk⟩ := ih (fun x hx => h x (List.mem_cons_of_mem _ hx))
    have h0 := h kv (List.mem_cons_self _ _)
    exact ⟨by simp [specClearCount, h0, hc], by simp [specClearKept, h0, hk]⟩

theorem mem_specMatchedPaths (title : String) :
    ∀ (m : Metadata) (kv : String × CacheEntry), kv ∈ m → isSubstr title kv.1 = true →
      kv.2.path ≠ "" → kv.2.path ∈ specMatchedPaths title m := by
  intro m
  induction m with
  | nil => intro kv h; cases h
  | cons e r ih =>
    intro kv h hs hp
    rcases List.mem_cons.mp h with he | hr
    · subst he
      simp [specMatchedPaths, hs, hp]
    · by_cases hc : isSubstr title e.1 ∧ e.2.path ≠ ""
      · simp only [specMatchedPaths, if_pos hc]
        exact List.mem_cons_of_mem _ (ih kv hr hs hp)
      · simp only [specMatchedPaths, if_neg hc]
        exact ih kv hr hs hp

theorem specClearCount_zero (title : String) (fs : FileSys) :
    ∀ m : Metadata, specClearCount title fs m = 0 →
      specClearKept title fs m = m ∧ ∀ kv ∈ m, specShouldDelete title fs kv = false := by
  intro m
  induction m with
  | nil => intro _; exact ⟨rfl, fun kv h => absurd h (List.not_mem_nil kv)⟩
  | cons kv r ih =>
    intro h
    by_cases hd : specShouldDelete title fs kv = true
    · rw [specClearCount, if_pos hd] at h
      omega
    · have hd' : specShouldDelete title fs kv = false := by simpa using hd
      rw [specClearCount, hd'] at h
      simp only [Bool.false_eq_true, if_neg, not_false_iff, Nat.zero_add] at h
      obtain ⟨hk, hall⟩ := ih h
      refine ⟨by simp [specClearKept, hd', hk], ?_⟩
      intro x hx
      rcases List.mem_cons.mp hx with he | hr
      · rw [he]; exact hd'
      · exact hall x hr

theorem clearLoop_skip (kv : String × CacheEntry) :
    ∀ (keys : List String) (m : Metadata) (fs : FileSys) (cnt : Nat), kv.1 ∉ keys →
      clearLoop keys (kv :: m) fs cnt =
        ((clearLoop keys m fs cnt).1, kv :: (clearLoop keys m fs cnt).2.1,
          (clearLoop keys m fs cnt).2.2) := by
  intro keys
  induction keys with
  | nil => intro m fs cnt _; rfl
  | cons k ks ih =>
    intro m fs cnt h
    have hk : ¬ kv.1 = k := fun e => h (by simp [e])
    have h' : kv.1 ∉ ks := fun hm => h (List.mem_cons_of_mem _ hm)
    have hl : lookupA (kv :: m) k = lookupA m k := by simp [lookupA, hk]
    cases hlk : lookupA m k with
    | none =>
      simp only [clearLoop, hl, hlk]
      exact ih m fs cnt h'
    | some ci =>
      simp only [clearLoop, hl, hlk]
      by_cases hp : ci.path = ""
      · simp only [hp, if_pos]
        exact ih m fs cnt h'
      · simp only [hp, if_neg, not_false_iff]
        by_cases hex : fileExists fs ci.path = true
        · simp only [hex, if_pos]
          have he : eraseA (kv :: m) k = kv :: eraseA m k := by simp [eraseA, hk]
          rw [he]
          exact ih (eraseA m k) (removeFile fs ci.path) (cnt + 1) h'
        · have hex' : fileExists fs ci.path = false := by simpa using hex
          simp only [hex', Bool.false_eq_true, if_neg, not_false_iff]
          exact ih m fs cnt h'

theorem clearLoop_main (title : String) :
    ∀ (m : Metadata) (fs : FileSys) (cnt : Nat),
      (m.map Prod.fst).Nodup → (specMatchedPaths title m).Nodup →
      (clearLoop ((m.map Prod.fst).filter (fun k => isSubstr title k)) m fs cnt).1
          = cnt + specClearCount title fs m ∧
      (clearLoop ((m.map Prod.fst).filter (fun k => isSubstr title k)) m fs cnt).2.1
          = specClearKept title fs m ∧
      (∀ p, fileExists
          (clearLoop ((m.map Prod.fst).filter (fun k => isSubstr title k)) m fs cnt).2.2 p
            = true → fileExists fs p = true) ∧
      (∀ kv ∈ m, specShouldDelete title fs kv = true →
        fileExists
          (clearLoop ((m.map Prod.fst).filter (fun k => isSubstr title k)) m fs cnt).2.2
            kv.2.path = false) := by
  intro m
  induction m with
  | nil =>
    intro fs cnt _ _
    exact ⟨by simp [clearLoop, specClearCount], by simp [clearLoop, specClearKept],
      fun p h => h, fun kv h => absurd h (List.not_mem_nil kv)⟩
  | cons kv rest ih =>
    intro fs cnt hnd hmp
    simp only [List.map_cons, List.nodup_cons] at hnd
    obtain ⟨hnm, hnd'⟩ := hnd
    have hknotin : kv.1 ∉ (rest.map Prod.fst).filter (fun k => isSubstr title k) :=
      fun hin => hnm (List.mem_of_mem_filter hin)
    by_cases hs : isSubstr title kv.1 = true
    · by_cases hp : kv.2.path = ""
      -- matching key but falsy path: skipped, not counted, record survives
      · have hsd : specShouldDelete title fs kv = false := by
          simp [specShouldDelete, hs, hp]
        have hmp' : (specMatchedPaths title rest).Nodup := by
          have : specMatchedPaths title (kv :: rest) = specMatchedPaths title rest := by
            simp [specMatchedPaths, hp]
          rwa [this] at hmp
        obtain ⟨ihc, ihk, ihs, ihd⟩ := ih fs cnt hnd' hmp'
        have hloop : clearLoop ((kv.1 :: rest.map Prod.fst).filter
              (fun k => isSubstr title k)) (kv :: rest) fs cnt =
            ((clearLoop ((rest.map Prod.fst).filter (fun k => isSubstr title k))
                rest fs cnt).1,
              kv :: (clearLoop ((rest.map Prod.fst).filter (fun k => isSubstr title k))
                rest fs cnt).2.1,
              (clearLoop ((rest.map Prod.fst).filter (fun k => isSubstr title k))
                rest fs cnt).2.2) := by
          rw [List.filter_cons, if_pos (by simpa using hs)]
          have hself : lookupA (kv :: rest) kv.1 = some kv.2 := by simp [lookupA]
          simp only [clearLoop, hself, hp, if_pos]
          exact clearLoop_skip kv _ rest fs cnt hknotin
        rw [List.map_cons, hloop]
        refine ⟨by simp [specClearCount, hsd, ihc], by simp [specClearKept, hsd, ihk],
          ihs, ?_⟩
        intro x hx hdx
        rcases List.mem_cons.mp hx with he | hr
        · rw [he, hsd] at hdx
          cases hdx
        · exact ihd x hr hdx
      · by_cases hex : fileExists fs kv.2.path = true
        -- the deletion case
        · have hsd : specShouldDelete title fs kv = true := by
            simp [specShouldDelete, hs, hp, hex]
          have hmps : specMatchedPaths title (kv :: rest) =
              kv.2.path :: specMatchedPaths title rest := by
            simp [specMatchedPaths, hs, hp]
          rw [hmps, List.nodup_cons] at hmp
          obtain ⟨hpnotin, hmp'⟩ := hmp
          obtain ⟨ihc, ihk, ihs, ihd⟩ :=
            ih (removeFile fs kv.2.path) (cnt + 1) hnd' hmp'
          have hcongr : ∀ x ∈ rest, specShouldDelete title (removeFile fs kv.2.path) x =
              specShouldDelete title fs x := by
            intro x hx
            refine specShouldDelete_congr title _ _ x ?_
            intro hxs hxp
            refine fileExists_removeFile_ne fs kv.2.path x.2.path ?_
            intro he
            exact hpnotin (he ▸ mem_specMatchedPaths title rest x hx hxs hxp)
          obtain ⟨hceq, hkeq⟩ := specClear_congr title (removeFile fs kv.2.path) fs rest hcongr
          have hloop : clearLoop ((kv.1 :: rest.map Prod.fst).filter
                (fun k => isSubstr title k)) (kv :: rest) fs cnt =
              clearLoop ((rest.map Prod.fst).filter (fun k => isSubstr title k))
                rest (removeFile fs kv.2.path) (cnt + 1) := by
            rw [List.filter_cons, if_pos (by simpa using hs)]
            have hself : lookupA (kv :: rest) kv.1 = some kv.2 := by simp [lookupA]
            simp only [clearLoop, hself, hp, if_neg, not_false_iff, hex, if_pos]
            have he : eraseA (kv :: rest) kv.1 = eraseA rest kv.1 := by simp [eraseA]
            rw [he, eraseA_of_not_mem rest kv.1 hnm]
          rw [List.map_cons, hloop]
          refine ⟨?_, ?_, ?_, ?_⟩
          · rw [ihc, hceq, specClearCount, if_pos (by simpa using hsd)]
            omega
          · rw [ihk, hkeq, specClearKept, if_pos (by simpa using hsd)]
          · intro p hpe
            exact fileExists_removeFile_le fs p kv.2.path (ihs p hpe)
          · intro x hx hdx
            rcases List.mem_cons.mp hx with he | hr
            · subst he
              cases hout : fileExists (clearLoop ((rest.map Prod.fst).filter
                  (fun k => isSubstr title k)) rest (removeFile fs x.2.path)
                  (cnt + 1)).2.2 x.2.path with
              | false => rfl
              | true =>
                have := ihs x.2.path hout
                rw [fileExists_removeFile_self] at this
                cases this
            · refine ihd x hr ?_
              rw [hcongr x hr]
              exact hdx
        -- matching key, nonempty path, but the file is already gone: skipped
        · have hex' : fileExists fs kv.2.path = false := by simpa using hex
          have hsd : specShouldDelete title fs kv = false := by
            simp [specShouldDelete, hs, hp, hex']
          have hmp' : (specMatchedPaths title rest).Nodup := by
            have hmps : specMatchedPaths title (kv :: rest) =
                kv.2.path :: specMatchedPaths title rest := by
              simp [specMatchedPaths, hs, hp]
            rw [hmps, List.nodup_cons] at hmp
            exact hmp.2
          obtain ⟨ihc, ihk, ihs, ihd⟩ := ih fs cnt hnd' hmp'
          have hloop : clearLoop ((kv.1 :: rest.map Prod.fst).filter
                (fun k => isSubstr title k)) (kv :: rest) fs cnt =
              ((clearLoop ((rest.map Prod.fst).filter (fun k => isSubstr title k))
                  rest fs cnt).1,
                kv :: (clearLoop ((rest.map Prod.fst).filter (fun k => isSubstr title k))
                  rest fs cnt).2.1,
                (clearLoop ((rest.map Prod.fst).filter (fun k => isSubstr title k))
                  rest fs cnt).2.2) := by
            rw [List.filter_cons, if_pos (by simpa using hs)]
            have hself : lookupA (kv :: rest) kv.1 = some kv.2 := by simp [lookupA]
            simp only [clearLoop, hself, hp, if_neg, not_false_iff, hex',
              Bool.false_eq_true]
            exact clearLoop_skip kv _ rest fs cnt hknotin
          rw [List.map_cons, hloop]
          refine ⟨by simp [specClearCount, hsd, ihc], by simp [specClearKept, hsd, ihk],
            ihs, ?_⟩
          intro x hx hdx
          rcases List.mem_cons.mp hx with he | hr
          · rw [he, hsd] at hdx
            cases hdx
          · exact ihd x hr hdx
    -- key does not contain the owner string: untouched
    · have hs' : isSubstr title kv.1 = false := by simpa using hs
      have hsd : specShouldDelete title fs kv = false := by
        simp [specShouldDelete, hs']
      have hmp' : (specMatchedPaths title rest).Nodup := by
        have : specMatchedPaths title (kv :: rest) = specMatchedPaths title rest := by
          simp [specMatchedPaths, hs']
        rwa [this] at hmp
      obtain ⟨ihc, ihk, ihs, ihd⟩ := ih fs cnt hnd' hmp'
      have hloop : clearLoop ((kv.1 :: rest.map Prod.fst).filter
            (fun k => isSubstr title k)) (kv :: rest) fs cnt =
          ((clearLoop ((rest.map Prod.fst).filter (fun k => isSubstr title k))
              rest fs cnt).1,
            kv :: (clearLoop ((rest.map Prod.fst).filter (fun k => isSubstr title k))
              rest fs cnt).2.1,
            (clearLoop ((rest.map Prod.fst).filter (fun k => isSubstr title k))
              rest fs cnt).2.2) := by
        rw [List.filter_cons, if_neg (by simp [hs'])]
        exact clearLoop_skip kv _ rest fs cnt hknotin
      rw [List.map_cons, hloop]
      refine ⟨by simp [specClearCount, hsd, ihc], by simp [specClearKept, hsd, ihk],
        ihs, ?_⟩
      intro x hx hdx
      rcases List.mem_cons.mp hx with he | hr
      · rw [he, hsd] at hdx
        cases hdx
      · exact ihd x hr hdx

theorem getCacheMetadata_eq_of_storage {s1 s2 : CacheState}
    (h : s1.storage = s2.storage) : getCacheMetadata s1 = getCacheMetadata s2 := by
  unfold getCacheMetadata
  rw [h]

/-- C7: `clearNovelCache owner` deletes exactly the metadata records whose
cache key contains `owner` and whose backing-file deletion succeeds, leaves
every other record in place (in order), returns the number of entries
actually deleted, and leaves no backing file of a deleted record on disk;
a failed file deletion is skipped without aborting the loop and its entry is
not counted. -/
theorem clearNovelCache_spec (title : String) (s : CacheState)
    (hnd : ((getCacheMetadata s).map Prod.fst).Nodup)
    (hmp : (specMatchedPaths title (getCacheMetadata s)).Nodup) :
    (clearNovelCache title s).1 = specClearCount title s.fs (getCacheMetadata s) ∧
    getCacheMetadata (clearNovelCache title s).2 =
      specClearKept title s.fs (getCacheMetadata s) ∧
    (∀ kv ∈ getCacheMetadata s, specShouldDelete title s.fs kv = true →
      fileExists (clearNovelCache title s).2.fs kv.2.path = false) := by
  obtain ⟨hc, hk, _, hdel⟩ := clearLoop_main title (getCacheMetadata s) s.fs 0 hnd hmp
  rw [Nat.zero_add] at hc
  by_cases hpos : 0 < (clearLoop (((getCacheMetadata s).map Prod.fst).filter
      (fun k => isSubstr title k)) (getCacheMetadata s) s.fs 0).1
  · have hres : clearNovelCache title s =
        ((clearLoop (((getCacheMetadata s).map Prod.fst).filter
            (fun k => isSubstr title k)) (getCacheMetadata s) s.fs 0).1,
          ⟨.valid (clearLoop (((getCacheMetadata s).map Prod.fst).filter
            (fun k => isSubstr title k)) (getCacheMetadata s) s.fs 0).2.1,
          (clearLoop (((getCacheMetadata s).map Prod.fst).filter
            (fun k => isSubstr title k)) (getCacheMetadata s) s.fs 0).2.2⟩) := by
      simp only [clearNovelCache, hpos, if_pos]
    rw [hres]
    exact ⟨hc, by simpa [getCacheMetadata] using hk, fun kv hm hd => hdel kv hm hd⟩
  · have hzero : (clearLoop (((getCacheMetadata s).map Prod.fst).filter
        (fun k => isSubstr title k)) (getCacheMetadata s) s.fs 0).1 = 0 := by omega
    have hcnt0 : specClearCount title s.fs (getCacheMetadata s) = 0 := by
      rw [← hc]; exact hzero
    obtain ⟨hkeep, hall⟩ := specClearCount_zero title s.fs (getCacheMetadata s) hcnt0
    have hres : clearNovelCache title s =
        ((clearLoop (((getCacheMetadata s).map Prod.fst).filter
            (fun k => isSubstr title k)) (getCacheMetadata s) s.fs 0).1,
          ⟨s.storage,
          (clearLoop (((getCacheMetadata s).map Prod.fst).filter
            (fun k => isSubstr title k)) (getCacheMetadata s) s.fs 0).2.2⟩) := by
      simp only [clearNovelCache, hpos, if_neg, not_false_iff]
    rw [hres]
    refine ⟨by rw [hzero, hcnt0], ?_, ?_⟩
    · rw [hkeep]
      exact getCacheMetadata_eq_of_storage rfl
    · intro kv hm hd
      rw [hall kv hm] at hd
      cases hd

theorem clearNovelCache_spec_witness :
    (clearNovelCache "A" ⟨.valid [("cover_A_", ⟨"pa", 1, "u"⟩), ("cover_B_", ⟨"pb", 2, "u"⟩),
        ("content_A_x", ⟨"pax", 3, "u"⟩)], [("pa", 3), ("pb", 4)]⟩).1 =
      specClearCount "A" [("pa", 3), ("pb", 4)]
        [("cover_A_", ⟨"pa", 1, "u"⟩), ("cover_B_", ⟨"pb", 2, "u"⟩),
          ("content_A_x", ⟨"pax", 3, "u"⟩)] ∧
    specClearCount "A" [("pa", 3), ("pb", 4)]
      [("cover_A_", ⟨"pa", 1, "u"⟩), ("cover_B_", ⟨"pb", 2, "u"⟩),
        ("content_A_x", ⟨"pax", 3, "u"⟩)] = 1 ∧
    getCacheMetadata (clearNovelCache "A" ⟨.valid [("cover_A_", ⟨"pa", 1, "u"⟩),
        ("cover_B_", ⟨"pb", 2, "u"⟩), ("content_A_x", ⟨"pax", 3, "u"⟩)],
        [("pa", 3), ("pb", 4)]⟩).2 =
      specClearKept "A" [("pa", 3), ("pb", 4)]
        [("cover_A_", ⟨"pa", 1, "u"⟩), ("cover_B_", ⟨"pb", 2, "u"⟩),
          ("content_A_x", ⟨"pax", 3, "u"⟩)] := by
  have h := clearNovelCache_spec "A" ⟨.valid [("cover_A_", ⟨"pa", 1, "u"⟩),
      ("cover_B_", ⟨"pb", 2, "u"⟩), ("content_A_x", ⟨"pax", 3, "u"⟩)],
      [("pa", 3), ("pb", 4)]⟩ (by decide) (by decide)
  exact ⟨h.1, by decide, h.2.1⟩

/-! ### C9: cache-key and path derivation are not injective on composites -/

/-- C9 counterexample: two distinct composites share both the cache key and
the destination path (the key joins unsanitized components with an ambiguous
underscore separator), and two cover composites differing only in the image
name share the destination path (cover paths ignore the image name). -/
theorem cacheKey_path_collision :
    cacheKey .content "a" "b_c" = cacheKey .content "a_b" "c" ∧
    getCacheFilePath .content "a" "b_c" = getCacheFilePath .content "a_b" "c" ∧
    getCacheFilePath .cover "N" "x" = getCacheFilePath .cover "N" "y" ∧
    (("a", "b_c") : String × String) ≠ (("a_b", "c") : String × String) ∧
    ("x" : String) ≠ "y" := by decide

theorem splitUnd {a1 b1 a2 b2 : List Char} (h1 : '_' ∉ a1) (h2 : '_' ∉ a2)
    (h : a1 ++ '_' :: b1 = a2 ++ '_' :: b2) : a1 = a2 ∧ b1 = b2 := by
  induction a1 generalizing a2 with
  | nil =>
    cases a2 with
    | nil => simpa using h
    | cons c r =>
      exfalso
      simp only [List.nil_append, List.cons_append, List.cons.injEq] at h
      exact h2 (by rw [← h.1]; exact List.mem_cons_self _ _)
  | cons c r ih =>
    cases a2 with
    | nil =>
      exfalso
      simp only [List.nil_append, List.cons_append, List.cons.injEq] at h
      exact h1 (by rw [← h.1]; exact List.mem_cons_self _ _)
    | cons d q =>
      simp only [List.cons_append, List.cons.injEq] at h
      obtain ⟨hcd, h'⟩ := h
      obtain ⟨ha, hb⟩ := ih (fun hm => h1 (List.mem_cons_of_mem _ hm))
        (fun hm => h2 (List.mem_cons_of_mem _ hm)) h'
      exact ⟨by rw [hcd, ha], hb⟩

theorem catStr_no_underscore (ty : Category) : '_' ∉ (catStr ty).data := by
  cases ty <;> decide

theorem catStr_data_inj (a b : Category) (h : (catStr a).data = (catStr b).data) :
    a = b := by
  cases a <;> cases b <;> first | rfl | exact absurd h (by decide)

theorem cacheKey_data (ty : Category) (t n : String) :
    (cacheKey ty t n).data = (catStr ty).data ++ '_' :: (t.data ++ '_' :: n.data) := by
  have hu : ("_" : String).data = ['_'] := rfl
  simp [cacheKey, strData_append, hu, List.append_assoc]

theorem coverPath_data (t n : String) :
    (getCacheFilePath .cover t n).data =
      cacheDir.data ++ ("covers/".data ++ ((sanitize t).data ++ "_cover.jpg".data)) := by
  simp [getCacheFilePath, strData_append, List.append_assoc]

theorem contentPath_data (t n : String) :
    (getCacheFilePath .content t n).data =
      cacheDir.data ++ ("content/".data ++
        ((sanitize t).data ++ '_' :: ((sanitize n).data ++ ".jpg".data))) := by
  have hu : ("_" : String).data = ['_'] := rfl
  simp [getCacheFilePath, strData_append, hu, List.append_assoc]

theorem coversPre_ne (x y : List Char) :
    "covers/".data ++ x ≠ "content/".data ++ y := by
  intro h
  have hc : ("covers/" : String).data = ['c', 'o', 'v', 'e', 'r', 's', '/'] := rfl
  have hn : ("content/" : String).data = ['c', 'o', 'n', 't', 'e', 'n', 't', '/'] := rfl
  rw [hc, hn] at h
  simp only [List.cons_append, List.nil_append, List.cons.injEq] at h
  exact absurd h.2.2.1 (by decide)

/-- C9 (amended): key and path derivation are deterministic but not
injective in general; restricted to composites whose owner names contain no
underscore, cache-key derivation is injective, and restricted further to
components the sanitizer fixes and to empty image names for covers (cover
paths ignore the image name), path derivation is injective as well. -/
theorem cacheKeyPath_injective_amended (ty1 ty2 : Category) (t1 n1 t2 n2 : String)
    (ht1 : '_' ∉ t1.data) (ht2 : '_' ∉ t2.data) :
    (cacheKey ty1 t1 n1 = cacheKey ty2 t2 n2 → ty1 = ty2 ∧ t1 = t2 ∧ n1 = n2) ∧
    (sanitize t1 = t1 → sanitize t2 = t2 → sanitize n1 = n1 → sanitize n2 = n2 →
      (ty1 = .cover → n1 = "") → (ty2 = .cover → n2 = "") →
      getCacheFilePath ty1 t1 n1 = getCacheFilePath ty2 t2 n2 →
      ty1 = ty2 ∧ t1 = t2 ∧ n1 = n2) := by
  refine ⟨?_, ?_⟩
  · intro hkey
    have hk := congrArg String.data hkey
    rw [cacheKey_data, cacheKey_data] at hk
    obtain ⟨h1, h2⟩ := splitUnd (catStr_no_underscore ty1) (catStr_no_underscore ty2) hk
    obtain ⟨h3, h4⟩ := splitUnd ht1 ht2 h2
    exact ⟨catStr_data_inj ty1 ty2 h1, String.ext h3, String.ext h4⟩
  · intro hst1 hst2 hsn1 hsn2 hcov1 hcov2 hpath
    have hp := congrArg String.data hpath
    cases ty1 with
    | cover =>
      cases ty2 with
      | cover =>
        rw [coverPath_data, coverPath_data, hst1, hst2] at hp
        have h1 := List.append_cancel_left hp
        have h2 := List.append_cancel_left h1
        have h3 := List.append_cancel_right h2
        exact ⟨rfl, String.ext h3, by rw [hcov1 rfl, hcov2 rfl]⟩
      | content =>
        rw [coverPath_data, contentPath_data, hst1, hst2, hsn2] at hp
        exact absurd (List.append_cancel_left hp) (coversPre_ne _ _)
    | content =>
      cases ty2 with
      | cover =>
        rw [contentPath_data, coverPath_data, hst1, hst2, hsn1] at hp
        exact absurd (List.append_cancel_left hp).symm (coversPre_ne _ _)
      | content =>
        rw [contentPath_data, contentPath_data, hst1, hst2, hsn1, hsn2] at hp
        have h1 := List.append_cancel_left hp
        have h2 := List.append_cancel_left h1
        obtain ⟨h3, h4⟩ := splitUnd ht1 ht2 h2
        have h5 := List.append_cancel_right h4
        exact ⟨rfl, String.ext h3, String.ext h5⟩

theorem cacheKeyPath_injective_amended_witness :
    Category.content = Category.content ∧ ("ab" : String) = "ab" ∧ ("cd" : String) = "cd" :=
  (cacheKeyPath_injective_amended .content .content "ab" "cd" "ab" "cd"
    (by decide) (by decide)).1 rfl

end LNReader
